import Mathlib

/-!
Verification of the partitioned sliding-window regression engine of
`Smoother.py` (classes `PeaceDisarray`, `LinearRegression`, `BinanceData`).
Python floats are modelled as exact rationals, Python ints as `Nat`/`Int`,
raised exceptions as `Except` errors.
-/

namespace Smoother

/-- Selector for the regression coefficient reported per window:
slope `a`, intercept `b`, or their sum `ab`
(`LinearRegression.coefficient` / `PeaceDisarray.regression_coefficient`). -/
inductive Coeff where
  | a
  | b
  | ab
deriving DecidableEq, Repr

namespace LinearRegression

/-- The `x` data of `LinearRegression.__init__` for a window of `w` samples:
the keys `0, 1, ..., w-1` of the data dictionary built by
`PeaceDisarray.__regression_on_range`, as rationals. -/
def xs (w : Nat) : List ℚ :=
  (List.range w).map (fun i : Nat => (i : ℚ))

/-- `np.mean`: the arithmetic mean of a list of samples. -/
def mean (l : List ℚ) : ℚ :=
  l.sum / l.length

/-- The slope of `LinearRegression.__coefficient` for `'a'`:
`(np.sum(y*x) - n*mean_y*mean_x) / (np.sum(x*x) - n*mean_x*mean_x)`
with `x = 0..n-1`, `n = len(y)`. -/
def coefficientA (y : List ℚ) : ℚ :=
  let x := xs y.length
  let n : ℚ := y.length
  ((List.zipWith (· * ·) y x).sum - n * mean y * mean x) /
    ((x.map (fun t => t * t)).sum - n * mean x * mean x)

/-- The intercept of `LinearRegression.__coefficient` for `'b'`:
`mean_y - a * mean_x`. -/
def coefficientB (y : List ℚ) : ℚ :=
  mean y - coefficientA y * mean (xs y.length)

/-- `LinearRegression.coefficient` for the three accepted selectors
(`'a'`, `'b'`, `'ab' = a + b`). -/
def coefficient (c : Coeff) (y : List ℚ) : ℚ :=
  match c with
  | .a => coefficientA y
  | .b => coefficientB y
  | .ab => coefficientA y + coefficientB y

/-- The slope formula exactly as the specification writes it, indexing the
window by position: `a = (Σ(y·x) - n·mean_y·mean_x) / (Σ(x·x) - n·mean_x·mean_x)`
with `x = 0..W-1`, `n = W`, arithmetic means. -/
def specSlope (y : List ℚ) : ℚ :=
  let n : ℚ := y.length
  let meanX : ℚ := (∑ i in Finset.range y.length, (i : ℚ)) / n
  let meanY : ℚ := (∑ i in Finset.range y.length, y.getD i 0) / n
  ((∑ i in Finset.range y.length, y.getD i 0 * (i : ℚ)) - n * meanY * meanX) /
    ((∑ i in Finset.range y.length, (i : ℚ) * (i : ℚ)) - n * meanX * meanX)

end LinearRegression

namespace PeaceDisarray

/-- The stride computation at the top of `PeaceDisarray.test`:
`step = len(prices) // cpu_count` when `cpu_count` is even, and
`len(prices) // (cpu_count - 1)` when it is odd; when `cpu_count == 1`
the odd branch divides by zero and the handler re-raises `ValueError`,
and `cpu_count == 0` would divide by zero in the even branch. -/
def step (n p : Nat) : Except String Nat :=
  if p % 2 = 0 then
    if p = 0 then .error "ZeroDivisionError: integer division by zero"
    else .ok (n / p)
  else
    if p - 1 = 0 then .error "ValueError: cpu_count should be higher or equal to 2."
    else .ok (n / (p - 1))

/-- The chunk-building loop of `PeaceDisarray.test`:
`for index in range(start, n, st)`, emitting `range(index, index+st)`
unless `index + st >= n`, in which case the final chunk is `range(index, n)`.
A chunk `range(lo, hi)` is represented by the pair `(lo, hi)`.
The fuel argument is `n - index`, enough iterations whenever `st ≥ 1`. -/
def rangesAux (n st : Nat) : Nat → Nat → List (Nat × Nat)
  | 0, _ => []
  | fuel + 1, index =>
    if index < n then
      (if n ≤ index + st then (index, n) else (index, index + st)) ::
        rangesAux n st fuel (index + st)
    else []

/-- The list `ranges` of `PeaceDisarray.test` for price count `n`,
stride `st` and loop start `start` (the window size). Only meaningful for
`st ≥ 1`; `PeaceDisarray.partition` guards the `st = 0` case. -/
def ranges (n st start : Nat) : List (Nat × Nat) :=
  rangesAux n st (n - start) start

/-- Stride computation followed by the chunk loop, as executed by
`PeaceDisarray.test`: a zero stride makes Python's `range(start, n, 0)`
raise `ValueError` before any chunk is produced. -/
def partition (n start p : Nat) : Except String (List (Nat × Nat)) :=
  match step n p with
  | .error e => .error e
  | .ok st =>
    if st = 0 then .error "ValueError: range() arg 3 must not be zero"
    else .ok (ranges n st start)

/-- The state of `PeaceDisarray.__regression_on_range`'s loop:
`current_index`, `counter`, the total amount sent to the shared progress
bar so far, and the accumulated `regression_coefficients`. -/
structure RegState where
  current : Nat
  counter : Nat
  progress : Nat
  coeffs : List ℚ
deriving DecidableEq, Repr

/-- The window passed to `LinearRegression` for position `index`:
`[prices[index - W + i] for i in range(W)]`, i.e. the `W` prices ending
just before `index`. -/
def window (prices : List ℚ) (w index : Nat) : List ℚ :=
  (List.range w).map (fun i => prices.getD (index - w + i) 0)

/-- One iteration of `PeaceDisarray.__regression_on_range`'s `for` loop:
increment `counter`, append the regression coefficient for `index`, and
after every 100th iteration flush 100 units to the progress bar, record
`current_index = index` and reset the counter. -/
def regStep (prices : List ℚ) (w : Nat) (c : Coeff) (s : RegState) (index : Nat) :
    RegState :=
  let counter := s.counter + 1
  let coeffs := s.coeffs ++ [LinearRegression.coefficient c (window prices w index)]
  if counter = 100 then
    { current := index, counter := 0, progress := s.progress + 100, coeffs := coeffs }
  else
    { s with counter := counter, coeffs := coeffs }

/-- `PeaceDisarray.__regression_on_range` on the chunk `range(lo, hi)`:
`current_index = range_of_index[0] = lo`, `ending_index = range_of_index[-1]
= hi - 1`, loop over `range(current_index, ending_index)`, then flush
`ending_index - current_index` to the progress bar. Returns the coefficient
list together with the total sent to the progress bar. -/
def regression_on_range (prices : List ℚ) (w : Nat) (c : Coeff) (lo hi : Nat) :
    List ℚ × Nat :=
  let ending := hi - 1
  let s := (List.range' lo (ending - lo)).foldl (regStep prices w c)
    ⟨lo, 0, 0, []⟩
  (s.coeffs, s.progress + (ending - s.current))

/-- One insertion into the Python dict `dict_linear_regressions`
(`d[k] = v`): overwrite if the key is present, else append. -/
def dictInsert (d : List (Nat × List ℚ)) (k : Nat) (v : List ℚ) :
    List (Nat × List ℚ) :=
  if k ∈ d.map Prod.fst then d.map (fun q => if q.1 = k then (k, v) else q)
  else d ++ [(k, v)]

/-- The dict built by the `as_completed` collection loop of
`PeaceDisarray.test`, inserting each `(chunk_index, coefficients)` result
in completion order. -/
def buildDict (rs : List (Nat × List ℚ)) : List (Nat × List ℚ) :=
  rs.foldl (fun d r => dictInsert d r.1 r.2) []

/-- The merge step of `PeaceDisarray.test`:
`[value for key in sorted(dict) for value in dict[key]]` — concatenate the
per-chunk coefficient lists in ascending key order. -/
def mergeResults (rs : List (Nat × List ℚ)) : List ℚ :=
  (((buildDict rs).map Prod.fst).insertionSort (· ≤ ·)).flatMap
    (fun k => ((buildDict rs).lookup k).getD [])

/-- `PeaceDisarray.test` end to end for `n = len(prices)` prices, window
size `w` (`values_to_linear_regression`), worker count `p` (`os.cpu_count`)
and coefficient selector `c`: compute the stride, build the chunks, run
`calculate_regression` on each chunk (pairing each result with its
submission index as `enumerate(ranges)` does), merge the coefficient lists
through the dict, and total the progress-bar updates. -/
def test (prices : List ℚ) (w p : Nat) (c : Coeff) :
    Except String (List ℚ × Nat) :=
  match step prices.length p with
  | .error e => .error e
  | .ok st =>
    if st = 0 then .error "ValueError: range() arg 3 must not be zero"
    else
      let results := ((ranges prices.length st w).map
        (fun ch => regression_on_range prices w c ch.1 ch.2)).enum
      .ok (mergeResults (results.map (fun r => (r.1, r.2.1))),
        (results.map (fun r => r.2.2)).sum)

/-- The state stored by `PeaceDisarray.__init__` on success: the prices as
an immutable tuple and the validated window size. -/
structure InitState where
  prices : List ℚ
  values_to_linear_regression : Int
deriving DecidableEq, Repr

/-- The validation in `PeaceDisarray.__init__`: `ValueError` unless
`values_to_linear_regression > 1`, then `ValueError` unless it is smaller
than `len(single_symbol_prices)`; on success the prices are stored as
`tuple(single_symbol_prices)`. -/
def init (single_symbol_prices : List ℚ) (values_to_linear_regression : Int) :
    Except String InitState :=
  if 1 < values_to_linear_regression then
    if values_to_linear_regression < single_symbol_prices.length then
      .ok ⟨single_symbol_prices, values_to_linear_regression⟩
    else .error "ValueError: values_to_linear_regression must not reach the size of single_symbol_prices"
  else .error "ValueError: values_to_linear_regression value should be higher than 1"

/-- `cs` is a gapless chain of non-empty chunks leading from position `a`
to position `n`. -/
def spans (a n : Nat) : List (Nat × Nat) → Prop
  | [] => a = n
  | c :: cs => c.1 = a ∧ c.1 < c.2 ∧ spans c.2 n cs

/-- The partition-completeness property claimed by the specification:
contiguous, non-overlapping, ascending chunks, every chunk non-empty, and
every position of `[start, n)` covered by exactly one chunk. -/
def ChunksCoverExactly (start n : Nat) (cs : List (Nat × Nat)) : Prop :=
  cs.Chain' (fun c d => c.2 = d.1) ∧
  cs.Pairwise (fun c d => c.2 ≤ d.1) ∧
  (∀ c ∈ cs, c.1 < c.2) ∧
  (∀ j : Nat, cs.countP (fun c => decide (c.1 ≤ j ∧ j < c.2)) =
    if start ≤ j ∧ j < n then 1 else 0)

/-- How a failure leaves the `as_completed` collection loop of
`PeaceDisarray.test`: `future.result()` re-raises the worker's original
exception as is (`plain`); a hypothetical wrapper carrying the offending
chunk index (the `ChunkComputeError` named by the specification) would be
`wrapped`, which the code never produces. -/
inductive RunError where
  | plain (cause : String)
  | wrapped (chunkIndex : Nat) (cause : String)
deriving DecidableEq, Repr

/-- The `as_completed` collection loop of `PeaceDisarray.test`, given each
worker's outcome in completion order: the first raising `future.result()`
aborts the loop with the worker's original error; otherwise all
`(chunk_index, coefficients)` results are gathered. -/
def collectResults : List (Except String (Nat × List ℚ)) →
    Except RunError (List (Nat × List ℚ))
  | [] => .ok []
  | .error e :: _ => .error (.plain e)
  | .ok r :: rest => (collectResults rest).map (fun l => r :: l)

/-- Collection followed by the merge of `PeaceDisarray.test`: the caller
receives either the fully merged coefficient sequence or the first
worker's error — never a partially merged sequence. -/
def dispatchMerge (completions : List (Except String (Nat × List ℚ))) :
    Except RunError (List ℚ) :=
  (collectResults completions).map mergeResults

end PeaceDisarray

namespace BinanceData

/-- A calendar date as parsed by
`datetime.datetime.strptime(_, "%d %b %Y")` in
`BinanceData.get_monthly_tuples`. -/
structure Date where
  year : Nat
  month : Nat
  day : Nat
deriving DecidableEq, Repr

/-- `datetime` comparison: lexicographic on (year, month, day). -/
def Date.lt (a b : Date) : Bool :=
  a.year < b.year ∨ (a.year = b.year ∧
    (a.month < b.month ∨ (a.month = b.month ∧ a.day < b.day)))

/-- Gregorian leap-year rule, as `dateutil` uses for clamping days. -/
def isLeap (y : Nat) : Bool :=
  y % 4 = 0 ∧ (y % 100 ≠ 0 ∨ y % 400 = 0)

/-- Number of days in a month of a given year. -/
def daysInMonth (y m : Nat) : Nat :=
  if m = 2 then (if isLeap y then 29 else 28)
  else if m = 4 ∨ m = 6 ∨ m = 9 ∨ m = 11 then 30
  else 31

/-- `current_date + dateutil.relativedelta.relativedelta(months=1)`:
advance by one calendar month, clamping the day to the length of the
resulting month. -/
def addMonth (d : Date) : Date :=
  let y := if d.month = 12 then d.year + 1 else d.year
  let m := if d.month = 12 then 1 else d.month + 1
  { year := y, month := m, day := min d.day (daysInMonth y m) }

/-- Months elapsed since year 0, the measure that `addMonth` increments by
exactly one. -/
def monthIndex (d : Date) : Nat :=
  d.year * 12 + d.month

/-- The `while current_date < end_date` loop of
`BinanceData.get_monthly_tuples`, with fuel bounding the number of
one-month strides still possible. -/
def monthlyAux : Nat → Date → Date → List (Date × Date)
  | 0, _, _ => []
  | fuel + 1, cur, endDate =>
    if Date.lt cur endDate then
      (cur, addMonth cur) :: monthlyAux fuel (addMonth cur) endDate
    else []

/-- `BinanceData.get_monthly_tuples`: walk from `start` towards `endDate`
in one-calendar-month strides, emitting a `(range_start, range_end)` pair
per stride, stopping at the first stride start that is not before
`endDate`. The date-string formatting of the source is kept as `Date`
values. -/
def get_monthly_tuples (start endDate : Date) : List (Date × Date) :=
  monthlyAux (monthIndex endDate + 1 - monthIndex start) start endDate

end BinanceData

end Smoother

namespace Smoother

namespace PeaceDisarray

section PartitionLemmas

lemma rangesAux_of_le {n st fuel index : Nat} (h : n ≤ index) :
    rangesAux n st fuel index = [] := by
  cases fuel with
  | zero => rfl
  | succ f => simp [rangesAux, Nat.not_lt.mpr h]

lemma spans_rangesAux {st : Nat} (hst : 1 ≤ st) {n : Nat} :
    ∀ fuel index, index ≤ n → n - index ≤ fuel →
      spans index n (rangesAux n st fuel index) := by
  intro fuel
  induction fuel with
  | zero =>
    intro index hle hf
    have : index = n := by omega
    subst this
    simp [rangesAux, spans]
  | succ f ih =>
    intro index hle hf
    by_cases hlt : index < n
    · rw [rangesAux, if_pos hlt]
      by_cases habs : n ≤ index + st
      · rw [if_pos habs]
        refine ⟨rfl, hlt, ?_⟩
        rw [rangesAux_of_le habs]
        simp [spans]
      · rw [if_neg habs]
        refine ⟨rfl, by omega, ?_⟩
        exact ih (index + st) (by omega) (by omega)
    · have : index = n := by omega
      subst this
      simp [rangesAux, spans]

lemma spans_ranges {n st start : Nat} (hst : 1 ≤ st) (h : start ≤ n) :
    spans start n (ranges n st start) :=
  spans_rangesAux hst (n - start) start h (Nat.le_refl _)

lemma spans_fst_ge {n : Nat} : ∀ (cs : List (Nat × Nat)) (a : Nat), spans a n cs →
    ∀ c ∈ cs, a ≤ c.1 := by
  intro cs
  induction cs with
  | nil => intro a _ c hc; simp at hc
  | cons x xs ih =>
    intro a hs c hc
    obtain ⟨hx, hxlt, hrest⟩ := hs
    rcases List.mem_cons.mp hc with h | h
    · subst h; omega
    · have := ih x.2 hrest c h; omega

lemma spans_le {n : Nat} : ∀ (cs : List (Nat × Nat)) (a : Nat), spans a n cs → a ≤ n := by
  intro cs
  induction cs with
  | nil =>
    intro a h
    have : a = n := h
    omega
  | cons x xs ih =>
    intro a hs
    obtain ⟨hx, hxlt, hrest⟩ := hs
    have := ih x.2 hrest
    omega

lemma spans_chain {n : Nat} : ∀ (cs : List (Nat × Nat)) (a : Nat), spans a n cs →
    cs.Chain' (fun c d => c.2 = d.1) := by
  intro cs
  induction cs with
  | nil => intro a _; exact List.chain'_nil
  | cons x xs ih =>
    intro a hs
    obtain ⟨hx, hxlt, hrest⟩ := hs
    refine List.chain'_cons'.mpr ⟨?_, ih x.2 hrest⟩
    intro y hy
    cases xs with
    | nil => simp at hy
    | cons z zs =>
      simp at hy
      subst hy
      exact (hrest.1).symm

lemma spans_pairwise {n : Nat} : ∀ (cs : List (Nat × Nat)) (a : Nat), spans a n cs →
    cs.Pairwise (fun c d => c.2 ≤ d.1) := by
  intro cs
  induction cs with
  | nil => intro a _; exact List.Pairwise.nil
  | cons x xs ih =>
    intro a hs
    obtain ⟨hx, hxlt, hrest⟩ := hs
    exact List.Pairwise.cons (spans_fst_ge xs x.2 hrest) (ih x.2 hrest)

lemma spans_nonempty {n : Nat} : ∀ (cs : List (Nat × Nat)) (a : Nat), spans a n cs →
    ∀ c ∈ cs, c.1 < c.2 := by
  intro cs
  induction cs with
  | nil => intro a _ c hc; simp at hc
  | cons x xs ih =>
    intro a hs c hc
    obtain ⟨hx, hxlt, hrest⟩ := hs
    rcases List.mem_cons.mp hc with h | h
    · subst h; exact hxlt
    · exact ih x.2 hrest c h

lemma spans_countP {n : Nat} (j : Nat) :
    ∀ (cs : List (Nat × Nat)) (a : Nat), spans a n cs →
      cs.countP (fun c => decide (c.1 ≤ j ∧ j < c.2)) =
        if a ≤ j ∧ j < n then 1 else 0 := by
  intro cs
  induction cs with
  | nil =>
    intro a hs
    have ha : a = n := hs
    have h1 : ¬ (a ≤ j ∧ j < n) := by omega
    simp [List.countP_nil, h1]
  | cons x xs ih =>
    intro a hs
    obtain ⟨hx, hxlt, hrest⟩ := hs
    have hxn : x.2 ≤ n := spans_le xs x.2 hrest
    rw [List.countP_cons, ih x.2 hrest]
    by_cases hin : x.1 ≤ j ∧ j < x.2
    · have h1 : ¬ (x.2 ≤ j ∧ j < n) := by omega
      have h2 : a ≤ j ∧ j < n := by omega
      simp [hin, h1, h2]
    · by_cases h1 : x.2 ≤ j ∧ j < n
      · have h2 : a ≤ j ∧ j < n := by omega
        simp [hin, h1, h2]
      · have h2 : ¬ (a ≤ j ∧ j < n) := by omega
        simp [hin, h1, h2]

lemma chunksCoverExactly_of_spans {start n : Nat} {cs : List (Nat × Nat)}
    (hs : spans start n cs) : ChunksCoverExactly start n cs :=
  ⟨spans_chain cs start hs, spans_pairwise cs start hs, spans_nonempty cs start hs,
    fun j => spans_countP j cs start hs⟩

end PartitionLemmas

end PeaceDisarray

end Smoother

namespace Smoother

open PeaceDisarray LinearRegression

/-- Claim C2 (counterexample): the claim quantifies over all `N ≥ 1`,
`start ≤ N`, `P ≥ 1`, but at `N = 1`, `start = 0`, `P = 1` the source's
odd-CPU branch divides by zero and raises `ValueError`
(`cpu_count should be higher or equal to 2`), so no chunks are produced
and nothing covers the non-empty range `[0, 1)`. -/
theorem partition_completeness_cex :
    ¬ ∃ cs, partition 1 0 1 = Except.ok cs ∧ ChunksCoverExactly 0 1 cs := by
  rintro ⟨cs, h, -⟩
  simp [partition, step] at h

/-- Claim C2 (amended): whenever `PeaceDisarray.test`'s partition stage
succeeds (worker count and price count give a positive stride) and
`start ≤ N`, the produced chunks cover `[start, N)` exactly once each:
they are contiguous, non-overlapping, ascending, each non-empty, and every
position of `[start, N)` lies in exactly one chunk. -/
theorem partition_completeness (n start p : Nat) (cs : List (Nat × Nat))
    (hok : partition n start p = Except.ok cs) (hstart : start ≤ n) :
    ChunksCoverExactly start n cs := by
  unfold partition at hok
  split at hok
  · exact absurd hok (by simp)
  · split at hok
    · exact absurd hok (by simp)
    · rename_i st hstep h0
      have hcs : cs = ranges n st start := by
        injection hok with h
        exact h.symm
      subst hcs
      exact chunksCoverExactly_of_spans (spans_ranges (by omega) hstart)

/-- Claim C2 (witness): a concrete successful partition, 10 prices, window
size 2, 2 workers: chunks `[2,7)` and `[7,10)` cover `[2, 10)` exactly. -/
theorem partition_completeness_witness :
    ChunksCoverExactly 2 10 [(2, 7), (7, 10)] :=
  partition_completeness 10 2 2 [(2, 7), (7, 10)] (by rfl) (by omega)

/-- Claim C6 (counterexample): the claimed stride is `(N - start) // P` for
even `P`, but `PeaceDisarray.test` computes `len(self.prices) // cpu_count`
without subtracting `start`: with 10 prices, window size 5 and 2 workers
the code yields stride 5, not `(10 - 5) // 2 = 2`. -/
theorem stride_policy_cex :
    step 10 2 = Except.ok 5 ∧ (10 - 5) / 2 ≠ 5 :=
  ⟨rfl, by decide⟩

/-- Claim C6 (amended): the stride of `PeaceDisarray.test` is
`N // P` for even `P` (with `N = len(prices)`, not `N - start`) and
`N // (P - 1)` for odd `P ≥ 3`. -/
theorem stride_policy (n p : Nat) :
    (p % 2 = 0 → p ≠ 0 → step n p = Except.ok (n / p)) ∧
    (p % 2 = 1 → p ≠ 1 → step n p = Except.ok (n / (p - 1))) := by
  constructor
  · intro h1 h2
    unfold step
    rw [if_pos h1, if_neg h2]
  · intro h1 h2
    unfold step
    have h3 : ¬ p % 2 = 0 := by omega
    have h4 : ¬ p - 1 = 0 := by omega
    rw [if_neg h3, if_neg h4]

/-- Claim C6 (witness): both branches at concrete worker counts:
`10 // 2 = 5` for the even count 2, `10 // (3 - 1) = 5` for the odd
count 3. -/
theorem stride_policy_witness :
    step 10 2 = Except.ok 5 ∧ step 10 3 = Except.ok 5 :=
  ⟨(stride_policy 10 2).1 rfl (by decide), (stride_policy 10 3).2 rfl (by decide)⟩

/-- Claim C7 (counterexample): with 3 prices, window size 2 and 4 workers
the stride is `3 // 4 = 0`, and instead of degenerating to the single
chunk `[2, 3)` the loop header `range(2, 3, 0)` raises `ValueError`. -/
theorem zero_stride_raises_cex :
    partition 3 2 4 = Except.error "ValueError: range() arg 3 must not be zero" ∧
    partition 3 2 4 ≠ Except.ok [(2, 3)] :=
  ⟨rfl, fun h => Except.noConfusion h⟩

/-- Claim C7 (amended): whenever the computed stride is 0 (fewer
computable positions than the stride policy needs), `PeaceDisarray.test`
raises `ValueError` from `range(start, n, 0)` and produces no chunks at
all. -/
theorem zero_stride_raises (n start p : Nat) (h : step n p = Except.ok 0) :
    partition n start p =
      Except.error "ValueError: range() arg 3 must not be zero" := by
  unfold partition
  rw [h]
  rfl

/-- Claim C7 (witness): the amended behaviour at 3 prices, window size 2,
4 workers. -/
theorem zero_stride_raises_witness :
    partition 3 2 4 = Except.error "ValueError: range() arg 3 must not be zero" :=
  zero_stride_raises 3 2 4 rfl

/-- Claim C10: `PeaceDisarray.__init__` accepts exactly the window sizes
`1 < W < len(prices)` — `ValueError` otherwise — and on success stores the
input prices unchanged (as `tuple(single_symbol_prices)`) together with
the window size. -/
theorem init_validation (single_symbol_prices : List ℚ) (w : Int) :
    ((∃ s, init single_symbol_prices w = Except.ok s) ↔
      1 < w ∧ w < single_symbol_prices.length) ∧
    (∀ s, init single_symbol_prices w = Except.ok s →
      s.prices = single_symbol_prices ∧ s.values_to_linear_regression = w) := by
  constructor
  · constructor
    · rintro ⟨s, hs⟩
      unfold init at hs
      split at hs
      · split at hs
        · exact ⟨by assumption, by assumption⟩
        · exact absurd hs (by simp)
      · exact absurd hs (by simp)
    · rintro ⟨h1, h2⟩
      refine ⟨⟨single_symbol_prices, w⟩, ?_⟩
      unfold init
      rw [if_pos h1, if_pos h2]
  · intro s hs
    unfold init at hs
    split at hs
    · split at hs
      · injection hs with h
        subst h
        exact ⟨rfl, rfl⟩
      · exact absurd hs (by simp)
    · exact absurd hs (by simp)

/-- Claim C1 (code bug, evaluated): with prices `[1, 2, 3]` and window
size 2 (`N = W + 1`), the claim demands exactly one coefficient (for
position 2), but the single chunk is `range(2, 3)` and
`__regression_on_range` loops over
`range(range_of_index[0], range_of_index[-1]) = range(2, 2)`, skipping the
chunk's last position: the merged output is empty (and the progress
counter stays 0). -/
theorem degenerate_count_eval :
    test [1, 2, 3] 2 2 Coeff.a = Except.ok ([], 0) := rfl

/-- Claim C4 (code bug, evaluated): with prices `[1, ..., 7]`, window
size 2 and 2 workers there are `M = 5` computable positions and the
progress bar is created with total 5, but the chunks `[2,5)` and `[5,7)`
only process positions `{2, 3}` and `{5}`, so the counter ends at 3, not
`M = 5`. -/
theorem progress_total_eval :
    (test [1, 2, 3, 4, 5, 6, 7] 2 2 Coeff.a).map Prod.snd = Except.ok 3 ∧
    (Except.ok 3 : Except String Nat) ≠ Except.ok 5 := by
  refine ⟨rfl, ?_⟩
  intro h
  injection h with h2
  exact absurd h2 (by decide)

/-- Claim C8 (counterexample): when chunk 1's compute raises `boom`, the
collection loop re-raises the original error bare — the result is
`plain "boom"`, not a `ChunkComputeError`-style wrapper carrying the
offending chunk index (no such class exists anywhere in the source). -/
theorem failure_propagation_cex :
    dispatchMerge [Except.ok (0, [1]), Except.error "boom"] =
      Except.error (RunError.plain "boom") ∧
    Except.error (RunError.plain "boom") ≠
      (Except.error (RunError.wrapped 1 "boom") : Except RunError (List ℚ)) := by
  refine ⟨rfl, ?_⟩
  intro h
  injection h with h2
  exact absurd h2 (by decide)

/-- Claim C8 (amended): if any chunk's compute function raises, the whole
operation fails by propagating a worker's original error unwrapped, and no
merged result (partial or otherwise) is returned to the caller. -/
theorem failure_propagation (completions : List (Except String (Nat × List ℚ)))
    (e : String) (h : Except.error e ∈ completions) :
    ∃ cause, dispatchMerge completions = Except.error (RunError.plain cause) := by
  induction completions with
  | nil => simp at h
  | cons x rest ih =>
    cases x with
    | error e2 => exact ⟨e2, rfl⟩
    | ok r =>
      have hmem : Except.error e ∈ rest := by
        rcases List.mem_cons.mp h with h1 | h1
        · exact absurd h1 (by simp)
        · exact h1
      obtain ⟨cause, hc⟩ := ih hmem
      refine ⟨cause, ?_⟩
      unfold dispatchMerge at hc ⊢
      unfold collectResults
      cases hcr : collectResults rest with
      | error re =>
        rw [hcr] at hc
        simp [Except.map] at hc
        simp [Except.map, hc]
      | ok l =>
        rw [hcr] at hc
        simp [Except.map] at hc

/-- Claim C8 (witness): a concrete failing run, chunk 0 fine, chunk 1
raising. -/
theorem failure_propagation_witness :
    ∃ cause, dispatchMerge [Except.ok (0, [1]), Except.error "boom"] =
      Except.error (RunError.plain cause) :=
  failure_propagation [Except.ok (0, [1]), Except.error "boom"] "boom"
    (by simp)

lemma foldl_dictInsert (rs : List (Nat × List ℚ)) :
    ∀ (d : List (Nat × List ℚ)),
      (d.map Prod.fst ++ rs.map Prod.fst).Nodup →
      rs.foldl (fun acc r => dictInsert acc r.1 r.2) d = d ++ rs := by
  induction rs with
  | nil => intro d _; simp
  | cons r rest ih =>
    intro d hd
    have hmid : (r.1 :: (d.map Prod.fst ++ rest.map Prod.fst)).Nodup := by
      apply List.nodup_middle.mp
      simpa using hd
    have hnotin : r.1 ∉ d.map Prod.fst := by
      intro hmem
      exact (List.nodup_cons.mp hmid).1 (List.mem_append_left _ hmem)
    have hins : dictInsert d r.1 r.2 = d ++ [r] := by
      unfold dictInsert
      rw [if_neg hnotin]
    rw [List.foldl_cons, hins, ih (d ++ [r]) (by simpa using hd), List.append_assoc]
    rfl

lemma buildDict_eq_self (rs : List (Nat × List ℚ))
    (h : (rs.map Prod.fst).Nodup) : buildDict rs = rs := by
  unfold buildDict
  simpa using foldl_dictInsert rs [] (by simpa using h)

lemma lookup_cons_ne {i kk : Nat} {v : List ℚ} {l : List (Nat × List ℚ)}
    (h : i ≠ kk) : List.lookup i ((kk, v) :: l) = List.lookup i l := by
  rw [List.lookup_cons]
  have hb : (i == kk) = false := by simpa using h
  rw [hb]

lemma lookup_perm_of_nodup {rs rs2 : List (Nat × List ℚ)} (h : rs.Perm rs2)
    (hn : (rs.map Prod.fst).Nodup) (i : Nat) : rs.lookup i = rs2.lookup i := by
  induction h with
  | nil => rfl
  | cons x h2 ih =>
    rename_i l1 l2
    have hn2 : (l1.map Prod.fst).Nodup := by
      simp only [List.map_cons, List.nodup_cons] at hn
      exact hn.2
    rcases x with ⟨xk, xv⟩
    by_cases hx : i = xk
    · subst hx
      simp
    · rw [lookup_cons_ne hx, lookup_cons_ne hx]
      exact ih hn2
  | swap x y l =>
    rcases x with ⟨xk, xv⟩
    rcases y with ⟨yk, yv⟩
    have hxy : yk ≠ xk := by
      simp only [List.map_cons, List.nodup_cons, List.mem_cons] at hn
      exact fun hEq => hn.1 (Or.inl hEq)
    by_cases h1 : i = yk
    · subst h1
      rw [lookup_cons_ne hxy]
      simp
    · by_cases h2 : i = xk
      · subst h2
        rw [lookup_cons_ne h1]
        simp
      · rw [lookup_cons_ne h1, lookup_cons_ne h2, lookup_cons_ne h2,
          lookup_cons_ne h1]
  | trans h1 h2 ih1 ih2 =>
    rename_i l1 l2 l3
    have hn2 : (l2.map Prod.fst).Nodup := ((h1.map Prod.fst).nodup_iff).mp hn
    rw [ih1 hn, ih2 hn2]

lemma insertionSort_of_perm_range {l : List Nat} {k : Nat}
    (h : l.Perm (List.range k)) :
    l.insertionSort (· ≤ ·) = List.range k :=
  List.eq_of_perm_of_sorted ((List.perm_insertionSort _ l).trans h)
    (List.sorted_insertionSort _ l) (List.sorted_le_range k)

lemma mergeResults_eq_flatMap {k : Nat} {rs : List (Nat × List ℚ)}
    (hk : (rs.map Prod.fst).Perm (List.range k)) :
    mergeResults rs = (List.range k).flatMap (fun i => (rs.lookup i).getD []) := by
  have hn : (rs.map Prod.fst).Nodup := (hk.nodup_iff).mpr (List.nodup_range k)
  unfold mergeResults
  rw [buildDict_eq_self rs hn, insertionSort_of_perm_range hk]

/-- Claim C5: the merge of `PeaceDisarray.test` is completion-order
invariant: for worker results carrying the dense chunk indices
`0 .. k-1`, any permutation of arrival order yields the same merged
output, namely the concatenation of the per-chunk sequences in ascending
`chunk_index` order. -/
theorem merge_order_invariance (k : Nat) (rs rs2 : List (Nat × List ℚ))
    (hk : (rs.map Prod.fst).Perm (List.range k)) (hp : rs.Perm rs2) :
    mergeResults rs2 = mergeResults rs ∧
    mergeResults rs = (List.range k).flatMap (fun i => (rs.lookup i).getD []) := by
  have hn : (rs.map Prod.fst).Nodup := (hk.nodup_iff).mpr (List.nodup_range k)
  have hk2 : (rs2.map Prod.fst).Perm (List.range k) :=
    ((hp.map Prod.fst).symm).trans hk
  have hfun : (fun i => ((rs2.lookup i).getD ([] : List ℚ))) =
      (fun i => ((rs.lookup i).getD [])) :=
    funext fun i => by rw [lookup_perm_of_nodup hp hn i]
  refine ⟨?_, mergeResults_eq_flatMap hk⟩
  rw [mergeResults_eq_flatMap hk2, mergeResults_eq_flatMap hk, hfun]

/-- Claim C5 (witness): two completion orders of the results
`0 ↦ [5]`, `1 ↦ [7]` merge to the same list `[5, 7]`. -/
theorem merge_order_invariance_witness :
    mergeResults [(0, [5]), (1, [7])] = mergeResults [(1, [7]), (0, [5])] ∧
    mergeResults [(1, [7]), (0, [5])] =
      (List.range 2).flatMap
        (fun i => (([(1, [7]), (0, [5])] : List (Nat × List ℚ)).lookup i).getD []) :=
  merge_order_invariance 2 [(1, [7]), (0, [5])] [(0, [5]), (1, [7])]
    (by decide) (by decide)

lemma list_range_map_sum (f : Nat → ℚ) (n : Nat) :
    ((List.range n).map f).sum = ∑ i in Finset.range n, f i := by
  induction n with
  | zero => simp
  | succ m ih =>
    rw [List.range_succ, List.map_append, List.sum_append,
      Finset.sum_range_succ, ih]
    simp

lemma map_getD_range (y : List ℚ) :
    (List.range y.length).map (fun i => y.getD i 0) = y := by
  apply List.ext_getElem
  · simp
  · intro i h1 h2
    simp [List.getD_eq_getElem?_getD, List.getElem?_eq_getElem h2]

lemma zipWith_y_xs (y : List ℚ) :
    List.zipWith (· * ·) y (xs y.length) =
      (List.range y.length).map (fun i => y.getD i 0 * (i : ℚ)) := by
  have h := map_getD_range y
  calc List.zipWith (· * ·) y (xs y.length)
      = List.zipWith (· * ·) ((List.range y.length).map (fun i => y.getD i 0))
          (xs y.length) := by rw [h]
    _ = (List.range y.length).map (fun i => y.getD i 0 * (i : ℚ)) := by
        rw [xs, List.zipWith_map, List.zipWith_same]

/-- Claim C3: the regression coefficients of `LinearRegression` match the
specified formulas
`a = (Σ(y·x) - n·mean_y·mean_x) / (Σ(x·x) - n·mean_x·mean_x)` and
`b = mean_y - a·mean_x` with `x = 0..W-1` and `n = W`, and on the exactly
linear window `y = 2x + 3` with `W = 5` they return `a = 2` and `b = 3`
exactly, hence within the claimed `1e-9` tolerance. -/
theorem regression_formula (y : List ℚ) (hw : 2 ≤ y.length) :
    coefficientA y = specSlope y ∧
    coefficientB y = mean y - coefficientA y * mean (xs y.length) ∧
    coefficientA [3, 5, 7, 9, 11] = 2 ∧
    coefficientB [3, 5, 7, 9, 11] = 3 ∧
    |coefficientA [3, 5, 7, 9, 11] - 2| ≤ 1 / 1000000000 ∧
    |coefficientB [3, 5, 7, 9, 11] - 3| ≤ 1 / 1000000000 := by
  have hrange : List.range 5 = [0, 1, 2, 3, 4] := rfl
  have ha : coefficientA [3, 5, 7, 9, 11] = 2 := by
    norm_num [coefficientA, mean, xs, hrange]
  have hb : coefficientB [3, 5, 7, 9, 11] = 3 := by
    norm_num [coefficientB, coefficientA, mean, xs, hrange]
  refine ⟨?_, rfl, ha, hb, by rw [ha]; norm_num, by rw [hb]; norm_num⟩
  have hy : y.sum = ∑ i in Finset.range y.length, y.getD i 0 := by
    conv_lhs => rw [← map_getD_range y]
    exact list_range_map_sum _ _
  have hxlen : (xs y.length).length = y.length := by simp [xs]
  have hxsum : (xs y.length).sum = ∑ i in Finset.range y.length, (i : ℚ) :=
    list_range_map_sum _ _
  have hxsq : ((xs y.length).map (fun t => t * t)).sum =
      ∑ i in Finset.range y.length, (i : ℚ) * (i : ℚ) := by
    rw [xs, List.map_map]
    exact list_range_map_sum _ _
  simp only [coefficientA, specSlope, mean]
  rw [zipWith_y_xs y, list_range_map_sum, hxsq, hy, hxsum, hxlen]

/-- Claim C3 (witness): the formula equalities and the tolerance bounds at
the concrete linear window `y = [3, 5, 7, 9, 11]` (`y = 2x + 3`, `W = 5`). -/
theorem regression_formula_witness :
    coefficientA [3, 5, 7, 9, 11] = specSlope [3, 5, 7, 9, 11] ∧
    coefficientB [3, 5, 7, 9, 11] =
      mean [3, 5, 7, 9, 11] -
        coefficientA [3, 5, 7, 9, 11] * mean (xs ([3, 5, 7, 9, 11] : List ℚ).length) ∧
    coefficientA [3, 5, 7, 9, 11] = 2 ∧
    coefficientB [3, 5, 7, 9, 11] = 3 ∧
    |coefficientA [3, 5, 7, 9, 11] - 2| ≤ 1 / 1000000000 ∧
    |coefficientB [3, 5, 7, 9, 11] - 3| ≤ 1 / 1000000000 :=
  regression_formula [3, 5, 7, 9, 11] (by decide)

end Smoother

namespace Smoother

namespace BinanceData

lemma monthIndex_addMonth (d : Date) :
    monthIndex (addMonth d) = monthIndex d + 1 := by
  unfold addMonth monthIndex
  by_cases h : d.month = 12 <;> simp [h] <;> omega

lemma addMonth_month_le (d : Date) (h : d.month ≤ 12) :
    (addMonth d).month ≤ 12 := by
  unfold addMonth
  by_cases h12 : d.month = 12 <;> simp [h12] <;> omega

lemma lt_monthIndex {a b : Date} (ha : a.month ≤ 12) (hb : 1 ≤ b.month)
    (h : Date.lt a b = true) : monthIndex a ≤ monthIndex b := by
  unfold Date.lt at h
  simp only [decide_eq_true_eq] at h
  unfold monthIndex
  omega

lemma get_monthly_tuples_unfold (s e : Date) (hs : s.month ≤ 12)
    (he : 1 ≤ e.month) :
    get_monthly_tuples s e =
      if Date.lt s e then (s, addMonth s) :: get_monthly_tuples (addMonth s) e
      else [] := by
  unfold get_monthly_tuples
  by_cases h : Date.lt s e = true
  · have hle : monthIndex s ≤ monthIndex e := lt_monthIndex hs he h
    have hfuel : monthIndex e + 1 - monthIndex s =
        (monthIndex e - monthIndex s) + 1 := by omega
    have hf2 : monthIndex e + 1 - monthIndex (addMonth s) =
        monthIndex e - monthIndex s := by
      rw [monthIndex_addMonth]
      omega
    rw [hfuel, hf2]
    simp only [monthlyAux]
  · have hfalse : Date.lt s e = false := by simpa using h
    rw [if_neg (by simp [hfalse])]
    cases hfuel : monthIndex e + 1 - monthIndex s with
    | zero => simp [monthlyAux]
    | succ k => simp [monthlyAux, hfalse]

lemma monthly_props (k : Nat) : ∀ (s e : Date), s.month ≤ 12 → 1 ≤ e.month →
    monthIndex e + 1 - monthIndex s ≤ k →
    (Date.lt s e = false → get_monthly_tuples s e = []) ∧
    (Date.lt s e = true →
      (get_monthly_tuples s e).head? = some (s, addMonth s)) ∧
    (∀ q ∈ get_monthly_tuples s e, q.2 = addMonth q.1 ∧ Date.lt q.1 e = true) ∧
    (get_monthly_tuples s e).Chain' (fun q r => q.2 = r.1) ∧
    (∀ q, (get_monthly_tuples s e).getLast? = some q →
      Date.lt q.2 e = false) := by
  induction k with
  | zero =>
    intro s e hs he hf
    have hlt : Date.lt s e = false := by
      cases h1 : Date.lt s e
      · rfl
      · have := lt_monthIndex hs he h1
        omega
    have hnil : get_monthly_tuples s e = [] := by
      rw [get_monthly_tuples_unfold s e hs he, hlt]
      simp
    refine ⟨fun _ => hnil, fun h1 => absurd h1 (by simp [hlt]), ?_, ?_, ?_⟩
    · intro q hq
      rw [hnil] at hq
      simp at hq
    · rw [hnil]
      exact List.chain'_nil
    · intro q hq
      rw [hnil] at hq
      simp at hq
  | succ k ih =>
    intro s e hs he hf
    by_cases hlt : Date.lt s e = true
    · have heq : get_monthly_tuples s e =
          (s, addMonth s) :: get_monthly_tuples (addMonth s) e := by
        rw [get_monthly_tuples_unfold s e hs he, if_pos hlt]
      have hsle : monthIndex s ≤ monthIndex e := lt_monthIndex hs he hlt
      have hrec := ih (addMonth s) e (addMonth_month_le s hs) he
        (by rw [monthIndex_addMonth]; omega)
      obtain ⟨hr1, hr2, hr3, hr4, hr5⟩ := hrec
      refine ⟨fun hc => absurd hlt (by simp [hc]), ?_, ?_, ?_, ?_⟩
      · intro _
        rw [heq]
        rfl
      · intro q hq
        rw [heq] at hq
        rcases List.mem_cons.mp hq with h1 | h1
        · subst h1
          exact ⟨rfl, hlt⟩
        · exact hr3 q h1
      · rw [heq]
        apply List.chain'_cons'.mpr
        refine ⟨?_, hr4⟩
        intro r hr
        by_cases hlt2 : Date.lt (addMonth s) e = true
        · rw [hr2 hlt2] at hr
          have hreq : (addMonth s, addMonth (addMonth s)) = r := by
            simpa using hr
          rw [← hreq]
        · have hnil2 : get_monthly_tuples (addMonth s) e = [] :=
            hr1 (by simpa using hlt2)
          rw [hnil2] at hr
          simp at hr
      · intro q hq
        rw [heq] at hq
        rcases hrest : get_monthly_tuples (addMonth s) e with _ | ⟨x, rest2⟩
        · rw [hrest] at hq
          simp at hq
          have hltf : Date.lt (addMonth s) e = false := by
            cases h1 : Date.lt (addMonth s) e
            · rfl
            · have hh := hr2 h1
              rw [hrest] at hh
              simp at hh
          subst hq
          simpa using hltf
        · rw [hrest, List.getLast?_cons_cons] at hq
          apply hr5 q
          rw [hrest]
          exact hq
    · have hltf : Date.lt s e = false := by simpa using hlt
      have hnil : get_monthly_tuples s e = [] := by
        rw [get_monthly_tuples_unfold s e hs he, hltf]
        simp
      refine ⟨fun _ => hnil, fun h1 => absurd h1 (by simp [hltf]), ?_, ?_, ?_⟩
      · intro q hq
        rw [hnil] at hq
        simp at hq
      · rw [hnil]
        exact List.chain'_nil
      · intro q hq
        rw [hnil] at hq
        simp at hq

end BinanceData

open BinanceData

/-- Claim C9 (counterexample): the final stride of
`BinanceData.get_monthly_tuples` is not clipped to `end_date`: from
1 Jan 2020 to 15 Jan 2020 the single emitted pair ends at 1 Feb 2020, not
at the requested end date. -/
theorem monthly_tuples_cex :
    get_monthly_tuples ⟨2020, 1, 1⟩ ⟨2020, 1, 15⟩ =
      [(⟨2020, 1, 1⟩, ⟨2020, 2, 1⟩)] ∧
    (⟨2020, 2, 1⟩ : Date) ≠ ⟨2020, 1, 15⟩ :=
  ⟨rfl, by decide⟩

/-- Claim C9 (amended): for `start < end` with well-formed months,
`get_monthly_tuples` emits consecutive `(range_start, range_end)` pairs
walking from `start_date` in one-calendar-month strides — the first pair
starts at `start_date`, each pair ends exactly one month after it starts,
each pair's end is the next pair's start, every emitted start is before
`end_date` — but the final pair's end is only guaranteed to be `≥
end_date` (the first month boundary reaching it); it is not clipped to
`end_date`. -/
theorem monthly_tuples_props (s e : Date) (hs : s.month ≤ 12)
    (he : 1 ≤ e.month) (hlt : Date.lt s e = true) :
    (get_monthly_tuples s e).head? = some (s, addMonth s) ∧
    (∀ q ∈ get_monthly_tuples s e, q.2 = addMonth q.1 ∧ Date.lt q.1 e = true) ∧
    (get_monthly_tuples s e).Chain' (fun q r => q.2 = r.1) ∧
    (∀ q, (get_monthly_tuples s e).getLast? = some q →
      Date.lt q.2 e = false) := by
  have h := monthly_props (monthIndex e + 1 - monthIndex s) s e hs he
    (Nat.le_refl _)
  exact ⟨h.2.1 hlt, h.2.2.1, h.2.2.2.1, h.2.2.2.2⟩

/-- Claim C9 (witness): from 1 Jan 2020 to 15 Mar 2020 the emitted pairs
chain month by month from the start date, and the last end (1 Apr 2020)
is not before the end date. -/
theorem monthly_tuples_props_witness :
    (get_monthly_tuples ⟨2020, 1, 1⟩ ⟨2020, 3, 15⟩).head? =
      some (⟨2020, 1, 1⟩, addMonth ⟨2020, 1, 1⟩) ∧
    (∀ q ∈ get_monthly_tuples ⟨2020, 1, 1⟩ ⟨2020, 3, 15⟩,
      q.2 = addMonth q.1 ∧ Date.lt q.1 ⟨2020, 3, 15⟩ = true) ∧
    (get_monthly_tuples ⟨2020, 1, 1⟩ ⟨2020, 3, 15⟩).Chain'
      (fun q r => q.2 = r.1) ∧
    (∀ q, (get_monthly_tuples ⟨2020, 1, 1⟩ ⟨2020, 3, 15⟩).getLast? = some q →
      Date.lt q.2 ⟨2020, 3, 15⟩ = false) :=
  monthly_tuples_props ⟨2020, 1, 1⟩ ⟨2020, 3, 15⟩ (by decide) (by decide)
    (by decide)

end Smoother
